import Mathlib

/-!
Verification of the Lean frontend parser (src/frontends/lean/parser.h and
src/frontends/lean/cmd_table.cpp).

The repository ships the parser's header: data declarations (`parameter`,
`parser_error`, the `parser` class with its scoped local-declaration map,
scope-kind stacks, tag counter and error flags) together with a handful of
inline member bodies (`pos`, `scan`, `curr`, `next`, the constructor's
default arguments).  The out-of-line member bodies (`operator()`,
`parse_expr`, `parse_scoped_expr`, `get_tag`, the scope push/pop commands)
and the utility headers (`util/scoped_map.h`) are not part of the sources;
those operations are modelled from the specification, and each such
definition carries a doc comment saying so.

The file is organised as definitions first, theorems second.
-/

/-! ### Definitions: Scope Stack (local declarations)

Modelled from the spec: `util/scoped_map.h`, the type behind
`parser::local_decls` (parser.h lines 43-44, 55), is not among the sources.
Per spec sections 3 and 4.2 the Scope Stack is an ordered sequence of
binding frames: `push` opens a fresh innermost frame, `insert` adds an
entry to the innermost frame (shadowing is always permitted), `lookup`
walks from the innermost frame outward and returns the first match, and
`pop` discards exactly the entries of the innermost frame. -/

/-- One binding frame: entries most recent first. -/
abbrev Frame (α : Type) := List (String × α)

/-- The Scope Stack: frames innermost first. -/
abbrev ScopeStack (α : Type) : Type := List (Frame α)

/-- Open a fresh innermost frame. -/
def ScopeStack.push (s : ScopeStack α) : ScopeStack α := [] :: s

/-- Insert an entry into the innermost frame (always permitted, shadowing). -/
def ScopeStack.insert (n : String) (v : α) (s : ScopeStack α) : ScopeStack α :=
  match s with
  | [] => [[(n, v)]]
  | f :: t => ((n, v) :: f) :: t

/-- Discard the innermost frame. -/
def ScopeStack.pop (s : ScopeStack α) : ScopeStack α :=
  match s with
  | [] => []
  | _ :: t => t

/-- First match inside one frame (most recent entry first). -/
def Frame.lookup (n : String) : Frame α → Option α
  | [] => none
  | (m, v) :: t => if m = n then some v else Frame.lookup n t

/-- Walk from the innermost frame outward, returning on the first match. -/
def ScopeStack.lookup (n : String) : ScopeStack α → Option α
  | [] => none
  | f :: t =>
    match Frame.lookup n f with
    | some v => some v
    | none => ScopeStack.lookup n t

/-- A single Scope Stack operation. -/
inductive SOp (α : Type) where
  | push : SOp α
  | pop : SOp α
  | insert (n : String) (v : α) : SOp α

/-- Apply one operation to the Scope Stack. -/
def applyOp (op : SOp α) (s : ScopeStack α) : ScopeStack α :=
  match op with
  | SOp.push => ScopeStack.push s
  | SOp.pop => ScopeStack.pop s
  | SOp.insert n v => ScopeStack.insert n v s

/-- Run a sequence of Scope Stack operations, first operation first. -/
def runOps : List (SOp α) → ScopeStack α → ScopeStack α
  | [], s => s
  | op :: t, s => runOps t (applyOp op s)

/-- Number of pushes in a sequence of operations. -/
def countPush : List (SOp α) → Nat
  | [] => 0
  | SOp.push :: t => countPush t + 1
  | SOp.pop :: t => countPush t
  | SOp.insert _ _ :: t => countPush t

/-- Number of pops in a sequence of operations. -/
def countPop : List (SOp α) → Nat
  | [] => 0
  | SOp.push :: t => countPop t
  | SOp.pop :: t => countPop t + 1
  | SOp.insert _ _ :: t => countPop t

/-! ### Definitions: expression parser

Modelled from the spec: the body of `parser::parse_expr` (parser.h line 92)
is not among the sources.  Per spec section 4.5 it is a precedence-climbing
(Pratt) parser: parse one atomic term, then repeatedly, while the next
token denotes an infix rule whose left binding power exceeds the current
minimum binding power, consume it and parse its right operand at the
rule's right binding power, folding into the accumulated left-hand side.
The binding powers come from a table looked up per token, not hard-coded. -/

/-- A token of the expression grammar: an atomic operand or an operator. -/
inductive PTok where
  | atom (s : String) : PTok
  | op (s : String) : PTok
deriving DecidableEq

/-- Binding powers of one registered infix rule. -/
structure OpInfo where
  lbp : Nat
  rbp : Nat

/-- Expression trees produced by the parser. -/
inductive PExpr where
  | var (s : String) : PExpr
  | binApp (o : String) (l r : PExpr) : PExpr
deriving DecidableEq

mutual

/-- Fuelled precedence-climbing parse: one atomic term, then the infix loop. -/
def parseExprFuel (tbl : String → Option OpInfo) :
    Nat → Nat → List PTok → Option (PExpr × List PTok)
  | 0, _, _ => none
  | fuel + 1, minbp, toks =>
    match toks with
    | PTok.atom a :: rest => parseLoopFuel tbl fuel minbp (PExpr.var a) rest
    | _ => none

/-- Infix loop: consume an operator only while its left binding power
exceeds the current minimum binding power. -/
def parseLoopFuel (tbl : String → Option OpInfo) :
    Nat → Nat → PExpr → List PTok → Option (PExpr × List PTok)
  | 0, _, _, _ => none
  | fuel + 1, minbp, left, toks =>
    match toks with
    | PTok.op o :: rest =>
      match tbl o with
      | some info =>
        if minbp < info.lbp then
          match parseExprFuel tbl fuel info.rbp rest with
          | some (right, toks') =>
            parseLoopFuel tbl fuel minbp (PExpr.binApp o left right) toks'
          | none => none
        else
          some (left, toks)
      | none => some (left, toks)
    | _ => some (left, toks)

end

/-- Top-level entry mirroring `parse_expr(rbp)`: enough fuel for the stream. -/
def parse_expr (tbl : String → Option OpInfo) (rbp : Nat) (toks : List PTok) :
    Option (PExpr × List PTok) :=
  parseExprFuel tbl (2 * toks.length + 2) rbp toks

/-- The table of claim C5: infix plus with binding powers (65, 66) and
infix times with binding powers (70, 71). -/
def arithTbl : String → Option OpInfo :=
  fun o =>
    if o = "+" then some ⟨65, 66⟩
    else if o = "*" then some ⟨70, 71⟩
    else none

/-! ### Definitions: Position/Tag table

Modelled from the spec: the body of `parser::get_tag` (parser.h line 77,
backed by `m_next_tag_idx`, line 58) is not among the sources.  Per spec
sections 3 and 4.8 the table is an identity-keyed mapping from expression
node to a small integer tag: `get_tag` returns the recorded tag for that
node identity when present, otherwise allocates the next fresh index,
records it for the node, and bumps the counter.  Node identities are
modelled as natural numbers. -/

/-- State of the tag table: the identity-keyed mapping plus the counter. -/
structure TagTable where
  tagOf : Nat → Option Nat
  m_next_tag_idx : Nat

/-- Well-formedness maintained during a parser run: every recorded tag is
below the counter, and distinct identities carry distinct tags. -/
def TagTable.WF (s : TagTable) : Prop :=
  (∀ e t, s.tagOf e = some t → t < s.m_next_tag_idx) ∧
  (∀ e1 e2 t1 t2, s.tagOf e1 = some t1 → s.tagOf e2 = some t2 → e1 ≠ e2 → t1 ≠ t2)

/-- Return the recorded tag for the node identity, else allocate a new one. -/
def get_tag (e : Nat) (s : TagTable) : Nat × TagTable :=
  match s.tagOf e with
  | some t => (t, s)
  | none =>
    (s.m_next_tag_idx,
      ⟨fun x => if x = e then some s.m_next_tag_idx else s.tagOf x,
        s.m_next_tag_idx + 1⟩)

/-- The empty table at the start of a parser run. -/
def TagTable.empty : TagTable := ⟨fun _ => none, 0⟩

/-- A run of further queries on other nodes, state-threaded. -/
def runTags (es : List Nat) (s : TagTable) : TagTable :=
  match es with
  | [] => s
  | e :: t => runTags t (get_tag e s).2

/-! ### Definitions: Parser Error and the Command Driver

`parser_error` embeds the structure at parser.h lines 33-40: message text
plus position.  The driver loop is modelled from the spec: the body of
`parser::operator()` (parser.h lines 114-115) and of `protected_call` and
`sync_command` (lines 74-75) are not among the sources.  Per spec sections
4.7 and 7, each command's parse either succeeds or raises a Parser Error;
in strict mode (`m_use_exceptions`) the first error is rethrown to the
run's caller and no further commands are attempted; in tolerant mode the
error is displayed, the `m_found_errors` flag is set, the scanner
synchronizes to the next command start, and the loop continues; the run's
boolean result is whether no errors were found.  A command's outcome is
abstracted as `Option parser_error` (`none` = successful parse). -/

/-- Parser Error: message text plus Position (parser.h lines 33-40). -/
structure parser_error where
  msg : String
  pos : Nat × Nat
deriving DecidableEq

/-- A sample Parser Error used by concrete instantiations. -/
def sampleErr : parser_error := ⟨"unknown command", (1, 1)⟩

/-- A second sample Parser Error. -/
def sampleErr2 : parser_error := ⟨"invalid expression", (2, 5)⟩

/-- The driver loop over the remaining command outcomes, carrying
`m_found_errors`. -/
def runCmds (m_use_exceptions : Bool) :
    List (Option parser_error) → Bool → Except parser_error Bool
  | [], m_found_errors => Except.ok (!m_found_errors)
  | none :: rest, m_found_errors => runCmds m_use_exceptions rest m_found_errors
  | some e :: rest, _ =>
    if m_use_exceptions then Except.error e else runCmds m_use_exceptions rest true

/-- The top-level run `parser::operator()`: all commands, starting with no
errors found. -/
def parserRun (m_use_exceptions : Bool) (cmds : List (Option parser_error)) :
    Except parser_error Bool :=
  runCmds m_use_exceptions cmds false

/-! ### Definitions: scoped expression parse

Modelled from the spec: the body of `parser::parse_scoped_expr`
(parser.h line 93) is not among the sources.  Per spec section 4.5 it
pushes a fresh Scope Stack frame seeded with the given locals, parses one
expression at binding power `rbp`, and pops the frame unconditionally
before returning or propagating an error.  The sub-parser threads the
Scope Stack explicitly and reports failure in its result, mirroring
exception propagation by value. -/

/-- Push a fresh frame and seed it with the given locals. -/
def seedFrame (locals : List (String × α)) (s : ScopeStack α) : ScopeStack α :=
  List.foldl (fun st p => ScopeStack.insert p.1 p.2 st) (ScopeStack.push s) locals

/-- Scoped parse: seed a frame, run the sub-parser, pop unconditionally. -/
def parse_scoped_expr
    (body : Nat → ScopeStack α → Except parser_error PExpr × ScopeStack α)
    (locals : List (String × α)) (rbp : Nat) (s : ScopeStack α) :
    Except parser_error PExpr × ScopeStack α :=
  ((body rbp (seedFrame locals s)).1, ScopeStack.pop (body rbp (seedFrame locals s)).2)

/-! ### Definitions: Namespace/Section Manager

Modelled from the spec: the scope push/pop commands acting on
`m_namespace_prefixes` and `m_scope_kinds` (parser.h lines 62-64) have no
bodies among the sources.  Per spec section 4.3, pushing a Namespace or
Structure appends its segment to the current qualified prefix and records
the new prefix; a bare Scope contributes no segment; popping removes the
innermost frame, dropping its prefix contribution; popping with no open
frame is a Scope Error (modelled as `none`). -/

/-- Scope kinds, parser.h line 62. -/
inductive scope_kind where
  | Scope : scope_kind
  | Namespace : scope_kind
  | Structure : scope_kind
deriving DecidableEq

/-- Namespace/Section Manager state: the stacks of parser.h lines 63-64. -/
structure NsState where
  m_namespace_prefixes : List (List String)
  m_scope_kinds : List scope_kind
deriving DecidableEq

/-- The current fully qualified prefix, as its list of name segments. -/
def NsState.currentNs (s : NsState) : List String :=
  s.m_namespace_prefixes.headD []

/-- Open a scope.  A Namespace or Structure with a name segment extends the
qualified prefix; a bare Scope (or a kind given no segment) contributes
none. -/
def push_scope (k : scope_kind) (n : Option String) (s : NsState) : NsState :=
  match k, n with
  | scope_kind.Scope, _ => ⟨s.m_namespace_prefixes, scope_kind.Scope :: s.m_scope_kinds⟩
  | _, none => ⟨s.m_namespace_prefixes, scope_kind.Scope :: s.m_scope_kinds⟩
  | _, some seg =>
    ⟨(NsState.currentNs s ++ [seg]) :: s.m_namespace_prefixes, k :: s.m_scope_kinds⟩

/-- Close the innermost scope; with no open frame this is a Scope Error,
modelled as `none`. -/
def pop_scope (s : NsState) : Option NsState :=
  match s.m_scope_kinds with
  | [] => none
  | scope_kind.Scope :: rest => some ⟨s.m_namespace_prefixes, rest⟩
  | _ :: rest => some ⟨s.m_namespace_prefixes.tail, rest⟩

/-! ### Definitions: token advance (`curr`/`next`)

These two members are inline in the header: `scan()` sets `m_curr` from
the external scanner (parser.h line 102) and `next()` reads the next token
only if the current one is not end-of-file (line 106).  The scanner itself
(scanner.h) is external, so it is abstracted as a state type `σ` together
with a step function producing the next token; the token kinds follow the
spec's Token data model. -/

/-- Token kinds: end-of-input, identifier, keyword/symbol, numeral,
string literal. -/
inductive token_kind where
  | Eof : token_kind
  | Identifier : token_kind
  | Keyword : token_kind
  | Numeral : token_kind
  | StringLit : token_kind
deriving DecidableEq

/-- The token-level parser state: `m_curr` plus the scanner state. -/
structure ScanState (σ : Type) where
  m_curr : token_kind
  m_scanner : σ

/-- parser::scan, parser.h line 102: read one token from the scanner. -/
def pscan (scanFn : σ → token_kind × σ) (s : ScanState σ) : ScanState σ :=
  ⟨(scanFn s.m_scanner).1, (scanFn s.m_scanner).2⟩

/-- parser::next, parser.h line 106: read the next token if the current
one is not end-of-file. -/
def pnext (scanFn : σ → token_kind × σ) (s : ScanState σ) : ScanState σ :=
  if s.m_curr ≠ token_kind.Eof then pscan scanFn s else s

/-! ### Definitions: parser construction

The constructor's declaration with its default arguments is in the header
(parser.h lines 81-83): `ss = nullptr`, `use_exceptions = false`.
Modelled from the spec: the constructor body (parser.cpp is not among the
sources) stores each argument into the corresponding field (parser.h
lines 46-51); environment, io state and input stream are abstracted as
type parameters. -/

/-- The constructor-stored fields of the parser. -/
structure ParserInit (ε ι τ ς : Type) where
  m_env : ε
  m_ios : ι
  strm : τ
  strName : String
  m_ss : Option ς
  m_use_exceptions : Bool

/-- Construction with all arguments supplied. -/
def mkParser (ε ι τ ς : Type) (env : ε) (ios : ι) (strm : τ) (strName : String)
    (ss : Option ς) (use_exc : Bool) : ParserInit ε ι τ ς :=
  ⟨env, ios, strm, strName, ss, use_exc⟩

/-- Construction without the optional arguments: the header's defaults
`nullptr` and `false` apply. -/
def mkParserDefault (ε ι τ ς : Type) (env : ε) (ios : ι) (strm : τ)
    (strName : String) : ParserInit ε ι τ ς :=
  mkParser ε ι τ ς env ios strm strName none false

/-! ### Theorems: Scope Stack -/

/-- Auxiliary: looking a name up right after inserting it yields that entry. -/
theorem ScopeStack.lookup_insert (n : String) (v : α) (s : ScopeStack α) :
    ScopeStack.lookup n (ScopeStack.insert n v s) = some v := by
  cases s with
  | nil => simp [ScopeStack.insert, ScopeStack.lookup, Frame.lookup]
  | cons f t => simp [ScopeStack.insert, ScopeStack.lookup, Frame.lookup]

/-- C4: Scope Stack insert always succeeds (it is a total operation), and
shadowing behaves as specified: after inserting `x` with value `v1` in an
outer frame, pushing a frame, and inserting `x` with value `v2` again,
`lookup "x"` returns the inner binding `v2`; after popping the inner frame
`lookup "x"` returns the outer binding `v1` unchanged — lookup always
returns the innermost matching entry. -/
theorem scope_stack_shadowing (α : Type) (s : ScopeStack α) (v1 v2 : α) :
    ScopeStack.lookup "x"
        (ScopeStack.insert "x" v2 (ScopeStack.push (ScopeStack.insert "x" v1 s)))
      = some v2
    ∧ ScopeStack.lookup "x"
        (ScopeStack.pop
          (ScopeStack.insert "x" v2 (ScopeStack.push (ScopeStack.insert "x" v1 s))))
      = ScopeStack.lookup "x" (ScopeStack.insert "x" v1 s)
    ∧ ScopeStack.lookup "x" (ScopeStack.insert "x" v1 s) = some v1 := by
  refine ⟨ScopeStack.lookup_insert _ _ _, ?_, ScopeStack.lookup_insert _ _ _⟩
  cases s with
  | nil => rfl
  | cons f t => rfl

theorem runOps_append (a b : List (SOp α)) (s : ScopeStack α) :
    runOps (a ++ b) s = runOps b (runOps a s) := by
  induction a generalizing s with
  | nil => rfl
  | cons op t ih => simp [runOps, ih]

/-- Key frame-discipline lemma: a sequence whose prefixes never pop more
frames than were available above `rest` leaves the frames of `rest`
untouched, and the number of frames above `rest` changes exactly by
pushes minus pops. -/
theorem runOps_balanced (l : List (SOp α)) :
    ∀ (fs rest : List (Frame α)), fs ≠ [] →
    (∀ k, k ≤ l.length → countPop (List.take k l) < fs.length + countPush (List.take k l)) →
    ∃ fs', fs' ≠ [] ∧ runOps l (fs ++ rest) = fs' ++ rest ∧
      fs'.length + countPop l = fs.length + countPush l := by
  induction l with
  | nil =>
    intro fs rest hne _
    exact ⟨fs, hne, rfl, rfl⟩
  | cons op t ih =>
    intro fs rest hne hpre
    match op with
    | SOp.insert n v =>
      obtain ⟨f, fs1, rfl⟩ := List.exists_cons_of_ne_nil hne
      have hstep : runOps (SOp.insert n v :: t) ((f :: fs1) ++ rest)
          = runOps t ((((n, v) :: f) :: fs1) ++ rest) := by
        simp [runOps, applyOp, ScopeStack.insert]
      obtain ⟨fs', hne', heq, hlen⟩ :=
        ih (((n, v) :: f) :: fs1) rest (List.cons_ne_nil _ _) (by
          intro k hk
          have h := hpre (k + 1) (by simpa using Nat.succ_le_succ hk)
          simpa [countPop, countPush, List.take_succ_cons] using h)
      refine ⟨fs', hne', hstep.trans heq, ?_⟩
      simp only [countPop, countPush] at hlen ⊢
      simpa using hlen
    | SOp.push =>
      have hstep : runOps (SOp.push :: t) (fs ++ rest)
          = runOps t (([] :: fs) ++ rest) := by
        simp [runOps, applyOp, ScopeStack.push]
      obtain ⟨fs', hne', heq, hlen⟩ :=
        ih ([] :: fs) rest (List.cons_ne_nil _ _) (by
          intro k hk
          have h := hpre (k + 1) (by simpa using Nat.succ_le_succ hk)
          simp only [countPop, countPush, List.take_succ_cons, List.length_cons] at h ⊢
          omega)
      refine ⟨fs', hne', hstep.trans heq, ?_⟩
      simp only [countPop, countPush, List.length_cons] at hlen ⊢
      omega
    | SOp.pop =>
      have h1 := hpre 1 (by simp)
      have hlen2 : 2 ≤ fs.length := by
        simp only [List.take_succ_cons, List.take_zero, countPop, countPush] at h1
        omega
      obtain ⟨f, fs1, rfl⟩ := List.exists_cons_of_ne_nil hne
      have hfs1 : fs1 ≠ [] := by
        intro h
        subst h
        simp at hlen2
      have hstep : runOps (SOp.pop :: t) ((f :: fs1) ++ rest)
          = runOps t (fs1 ++ rest) := by
        simp [runOps, applyOp, ScopeStack.pop]
      obtain ⟨fs', hne', heq, hlen⟩ :=
        ih fs1 rest hfs1 (by
          intro k hk
          have h := hpre (k + 1) (by simpa using Nat.succ_le_succ hk)
          simp only [countPop, countPush, List.take_succ_cons, List.length_cons] at h ⊢
          omega)
      refine ⟨fs', hne', hstep.trans heq, ?_⟩
      simp only [countPop, countPush, List.length_cons] at hlen ⊢
      omega

/-- C3: for every sequence of Scope Stack operations with equal numbers of
pops and pushes (and no prefix popping more than it pushed, so that the
final pop is the one matching the initial push), running push, then the
sequence, then pop restores every lookup: for every name `n`, `lookup n`
after the final pop returns exactly what it returned before the
corresponding push. -/
theorem scope_stack_lookup_restore (α : Type) (l : List (SOp α)) (s : ScopeStack α)
    (n : String)
    (hbal : countPop l = countPush l)
    (hpre : ∀ k, k ≤ l.length → countPop (List.take k l) ≤ countPush (List.take k l)) :
    ScopeStack.lookup n (runOps (SOp.push :: (l ++ [SOp.pop])) s)
      = ScopeStack.lookup n s := by
  have hstate : runOps (SOp.push :: (l ++ [SOp.pop])) s = s := by
    have h0 : runOps (SOp.push :: (l ++ [SOp.pop])) s
        = runOps [SOp.pop] (runOps l ([[]] ++ s)) := by
      simp [runOps, applyOp, ScopeStack.push, runOps_append]
    obtain ⟨fs', hne', heq, hlen⟩ :=
      runOps_balanced l [[]] s (by simp) (by
        intro k hk
        have := hpre k hk
        simp only [List.length_cons, List.length_nil]
        omega)
    rw [h0, heq]
    have hfs1 : fs'.length = 1 := by
      simp only [List.length_cons, List.length_nil] at hlen
      omega
    obtain ⟨f, fs1, rfl⟩ := List.exists_cons_of_ne_nil hne'
    have : fs1 = [] := by
      simp only [List.length_cons] at hfs1
      exact List.eq_nil_of_length_eq_zero (by omega)
    subst this
    simp [runOps, applyOp, ScopeStack.pop]
  rw [hstate]

/-- Witness for C3 at a concrete balanced sequence and state. -/
theorem scope_stack_lookup_restore_witness :
    ScopeStack.lookup "a"
      (runOps (SOp.push :: ([SOp.insert "a" 1, SOp.push, SOp.insert "a" 2, SOp.pop] ++ [SOp.pop]))
        [[("a", 7)]])
      = ScopeStack.lookup "a" [[("a", 7)]] :=
  scope_stack_lookup_restore Nat
    [SOp.insert "a" 1, SOp.push, SOp.insert "a" 2, SOp.pop] [[("a", 7)]] "a"
    (by decide) (by decide)

/-! ### Theorems: expression parser -/

/-- C5: with plus registered at left binding power 65 / right 66 and times
at left 70 / right 71, parsing the token stream of "a + b * c" yields
a + (b * c), and parsing "a * b + c" yields (a * b) + c. -/
theorem parse_expr_precedence :
    parse_expr arithTbl 0
        [PTok.atom "a", PTok.op "+", PTok.atom "b", PTok.op "*", PTok.atom "c"]
      = some (PExpr.binApp "+" (PExpr.var "a") (PExpr.binApp "*" (PExpr.var "b") (PExpr.var "c")), [])
    ∧ parse_expr arithTbl 0
        [PTok.atom "a", PTok.op "*", PTok.atom "b", PTok.op "+", PTok.atom "c"]
      = some (PExpr.binApp "+" (PExpr.binApp "*" (PExpr.var "a") (PExpr.var "b")) (PExpr.var "c"), []) := by
  constructor
  · rfl
  · rfl

/-! ### Theorems: Position/Tag table -/

/-- Computation rule for a hit in the tag table. -/
theorem get_tag_of_some (e t : Nat) (s : TagTable) (h : s.tagOf e = some t) :
    get_tag e s = (t, s) := by
  unfold get_tag
  rw [h]

/-- Computation rule for a miss in the tag table. -/
theorem get_tag_of_none (e : Nat) (s : TagTable) (h : s.tagOf e = none) :
    get_tag e s = (s.m_next_tag_idx,
      ⟨fun x => if x = e then some s.m_next_tag_idx else s.tagOf x,
        s.m_next_tag_idx + 1⟩) := by
  unfold get_tag
  rw [h]

theorem TagTable.empty_WF : TagTable.WF TagTable.empty := by
  constructor
  · intro e t h
    simp [TagTable.empty] at h
  · intro e1 e2 t1 t2 h1 h2 _
    simp [TagTable.empty] at h1

/-- After a query, the node's tag is recorded in the resulting table. -/
theorem get_tag_recorded (e : Nat) (s : TagTable) :
    (get_tag e s).2.tagOf e = some (get_tag e s).1 := by
  cases h : s.tagOf e with
  | some t => rw [get_tag_of_some e t s h]; exact h
  | none => rw [get_tag_of_none e s h]; simp

/-- A query never erases a recorded tag. -/
theorem get_tag_stable (e a t : Nat) (s : TagTable) (h : s.tagOf a = some t) :
    (get_tag e s).2.tagOf a = some t := by
  cases he : s.tagOf e with
  | some u => rw [get_tag_of_some e u s he]; exact h
  | none =>
    rw [get_tag_of_none e s he]
    have hae : ¬ a = e := by
      intro hae
      rw [hae, he] at h
      exact Option.noConfusion h
    show (if a = e then some s.m_next_tag_idx else s.tagOf a) = some t
    rw [if_neg hae]
    exact h

/-- The counter never decreases across a query. -/
theorem get_tag_mono (e : Nat) (s : TagTable) :
    s.m_next_tag_idx ≤ (get_tag e s).2.m_next_tag_idx := by
  cases h : s.tagOf e with
  | some t => rw [get_tag_of_some e t s h]
  | none => rw [get_tag_of_none e s h]; exact Nat.le_succ _

/-- A query preserves well-formedness. -/
theorem get_tag_WF (e : Nat) (s : TagTable) (hwf : s.WF) : (get_tag e s).2.WF := by
  obtain ⟨hlt, hinj⟩ := hwf
  cases h : s.tagOf e with
  | some t =>
    rw [get_tag_of_some e t s h]
    exact ⟨hlt, hinj⟩
  | none =>
    rw [get_tag_of_none e s h]
    constructor
    · intro a ta ha
      replace ha : (if a = e then some s.m_next_tag_idx else s.tagOf a) = some ta := ha
      show ta < s.m_next_tag_idx + 1
      by_cases hae : a = e
      · rw [if_pos hae] at ha
        have : s.m_next_tag_idx = ta := Option.some.inj ha
        omega
      · rw [if_neg hae] at ha
        have := hlt a ta ha
        omega
    · intro a b ta tb ha hb hab
      replace ha : (if a = e then some s.m_next_tag_idx else s.tagOf a) = some ta := ha
      replace hb : (if b = e then some s.m_next_tag_idx else s.tagOf b) = some tb := hb
      by_cases hae : a = e
      · rw [if_pos hae] at ha
        have hbe : ¬ b = e := by
          intro hbe
          exact hab (hae.trans hbe.symm)
        rw [if_neg hbe] at hb
        have h1 : s.m_next_tag_idx = ta := Option.some.inj ha
        have h2 := hlt b tb hb
        omega
      · rw [if_neg hae] at ha
        by_cases hbe : b = e
        · rw [if_pos hbe] at hb
          have h1 : s.m_next_tag_idx = tb := Option.some.inj hb
          have h2 := hlt a ta ha
          omega
        · rw [if_neg hbe] at hb
          exact hinj a b ta tb ha hb hab

/-- Recorded tags survive an arbitrary run of further queries. -/
theorem runTags_stable (es : List Nat) (a t : Nat) (s : TagTable)
    (h : s.tagOf a = some t) : (runTags es s).tagOf a = some t := by
  induction es generalizing s with
  | nil => exact h
  | cons e rest ih => exact ih _ (get_tag_stable e a t s h)

theorem runTags_WF (es : List Nat) (s : TagTable) (hwf : s.WF) : (runTags es s).WF := by
  induction es generalizing s with
  | nil => exact hwf
  | cons e rest ih => exact ih _ (get_tag_WF e s hwf)

/-- C7: within one parser run (a well-formed table), querying the same node
identity again — even after arbitrarily many queries on other nodes —
returns the same tag, while querying a node of a different identity
returns a different tag, even if the nodes are structurally identical
(identity, not structure, keys the table). -/
theorem get_tag_identity (s : TagTable) (e1 e2 : Nat) (es : List Nat)
    (hwf : s.WF) :
    (get_tag e1 (runTags es (get_tag e1 s).2)).1 = (get_tag e1 s).1
    ∧ (e1 ≠ e2 → (get_tag e2 (runTags es (get_tag e1 s).2)).1 ≠ (get_tag e1 s).1) := by
  have hrec : (runTags es (get_tag e1 s).2).tagOf e1 = some (get_tag e1 s).1 :=
    runTags_stable es e1 _ _ (get_tag_recorded e1 s)
  have hwf1 : (runTags es (get_tag e1 s).2).WF := runTags_WF es _ (get_tag_WF e1 s hwf)
  constructor
  · rw [get_tag_of_some e1 _ _ hrec]
  · intro hne
    cases h2 : (runTags es (get_tag e1 s).2).tagOf e2 with
    | some t2 =>
      rw [get_tag_of_some e2 t2 _ h2]
      exact hwf1.2 e2 e1 t2 _ h2 hrec (fun h => hne h.symm)
    | none =>
      rw [get_tag_of_none e2 _ h2]
      have := hwf1.1 e1 _ hrec
      show (runTags es (get_tag e1 s).2).m_next_tag_idx ≠ (get_tag e1 s).1
      omega

/-- Witness for C7: the empty table, nodes 0 and 1, one interleaved query. -/
theorem get_tag_identity_witness :
    (get_tag 0 (runTags [5] (get_tag 0 TagTable.empty).2)).1 = (get_tag 0 TagTable.empty).1
    ∧ (get_tag 1 (runTags [5] (get_tag 0 TagTable.empty).2)).1 ≠ (get_tag 0 TagTable.empty).1 := by
  have h := get_tag_identity TagTable.empty 0 1 [5] TagTable.empty_WF
  exact ⟨h.1, h.2 (by decide)⟩

/-! ### Theorems: Command Driver -/

/-- In tolerant mode the driver loop always returns normally. -/
theorem runCmds_tolerant_ok (cmds : List (Option parser_error)) :
    ∀ fe, ∃ b, runCmds false cmds fe = Except.ok b := by
  induction cmds with
  | nil => intro fe; exact ⟨!fe, rfl⟩
  | cons c rest ih =>
    intro fe
    cases c with
    | none => exact ih fe
    | some e => simpa [runCmds] using ih true

/-- In strict mode any error the driver returns was raised by a command. -/
theorem runCmds_strict_mem (cmds : List (Option parser_error)) :
    ∀ fe e, runCmds true cmds fe = Except.error e → some e ∈ cmds := by
  induction cmds with
  | nil =>
    intro fe e h
    exact absurd h (by simp [runCmds])
  | cons c rest ih =>
    intro fe e h
    cases c with
    | none => exact List.mem_cons_of_mem _ (ih fe e h)
    | some e' =>
      simp only [runCmds, if_pos rfl] at h
      have : e' = e := Except.error.inj h
      subst this
      exact List.mem_cons_self _ _

/-- The tolerant driver loop computes exactly the errors-found flag. -/
theorem runCmds_tolerant_eq (cmds : List (Option parser_error)) :
    ∀ fe, runCmds false cmds fe = Except.ok (!fe && cmds.all Option.isNone) := by
  induction cmds with
  | nil => intro fe; simp [runCmds]
  | cons c rest ih =>
    intro fe
    cases c with
    | none => simpa [runCmds, List.all_cons] using ih fe
    | some e => simp [runCmds, List.all_cons, ih true]

/-- C1: no Parser Error escapes the top-level run in tolerant mode — the
run never returns an error, for any sequence of command outcomes; in
strict mode a Parser Error is the only failure mode, and any error the
run raises is one raised by a command of the input. -/
theorem parser_run_error_boundary (cmds : List (Option parser_error)) (e : parser_error) :
    parserRun false cmds ≠ Except.error e
    ∧ (parserRun true cmds = Except.error e → some e ∈ cmds) := by
  constructor
  · intro h
    obtain ⟨b, hb⟩ := runCmds_tolerant_ok cmds false
    rw [parserRun] at h
    rw [h] at hb
    exact Except.noConfusion hb
  · intro h
    exact runCmds_strict_mem cmds false e h

/-- Witness for C1: a run whose single command raises `sampleErr`. -/
theorem parser_run_error_boundary_witness :
    parserRun false [some sampleErr] ≠ Except.error sampleErr
    ∧ some sampleErr ∈ [some sampleErr] :=
  ⟨(parser_run_error_boundary [some sampleErr] sampleErr).1,
    (parser_run_error_boundary [some sampleErr] sampleErr).2 rfl⟩

/-- C6: in tolerant mode the run's boolean is true exactly when no command
raised a Parser Error (false if any command failed, though parsing
continued); in strict mode the first error raised is the run's result and
the commands after it are never attempted — the result does not depend on
them. -/
theorem parser_run_result (cmds pre post : List (Option parser_error))
    (e : parser_error) (hpre : ∀ c ∈ pre, c = none) :
    parserRun false cmds = Except.ok (cmds.all Option.isNone)
    ∧ parserRun true (pre ++ some e :: post) = Except.error e := by
  constructor
  · simpa using runCmds_tolerant_eq cmds false
  · rw [parserRun]
    induction pre with
    | nil => simp [runCmds]
    | cons c rest ih =>
      have hc : c = none := hpre c (List.mem_cons_self _ _)
      subst hc
      exact ih (fun c hc => hpre c (List.mem_cons_of_mem _ hc))

/-- Witness for C6: one failing command among successes; the strict run
stops at `sampleErr` regardless of the command after it. -/
theorem parser_run_result_witness :
    parserRun false [none, some sampleErr] = Except.ok false
    ∧ parserRun true ([none] ++ some sampleErr :: [some sampleErr2]) = Except.error sampleErr := by
  have h := parser_run_result [none, some sampleErr] [none] [some sampleErr2] sampleErr
    (by intro c hc; simpa using hc)
  exact ⟨h.1, h.2⟩

/-! ### Theorems: scoped expression parse -/

/-- Seeding a frame on top of `s` leaves `s` as the tail. -/
theorem seedFrame_cons (locals : List (String × α)) (s : ScopeStack α) :
    ∃ f, seedFrame locals s = f :: s := by
  rw [seedFrame, ScopeStack.push]
  generalize ([] : Frame α) = f0
  induction locals generalizing f0 with
  | nil => exact ⟨f0, rfl⟩
  | cons p rest ih => exact ih _

/-- C2: a `parse_scoped_expr` whose sub-parse raises an error still leaves
the Scope Stack exactly as it was before the call: as long as the
sub-parser respects the frame discipline (it returns the stack with the
frames below its starting top frame untouched, which spec section 4.2
guarantees for every exit path), the frame pushed for the given locals is
popped on the error path as well as on the success path, so the resulting
stack is exactly `s` whatever the outcome — in particular when the result
is a propagated Parser Error. -/
theorem parse_scoped_expr_scope_restore (α : Type)
    (body : Nat → ScopeStack α → Except parser_error PExpr × ScopeStack α)
    (locals : List (String × α)) (rbp : Nat) (s : ScopeStack α)
    (hbody : ∀ (bp : Nat) (f : Frame α) (t : ScopeStack α), ∃ f', (body bp (f :: t)).2 = f' :: t) :
    (parse_scoped_expr body locals rbp s).2 = s := by
  obtain ⟨f, hf⟩ := seedFrame_cons locals s
  obtain ⟨f', hf'⟩ := hbody rbp f s
  rw [parse_scoped_expr, hf, hf']
  rfl

/-- Witness for C2: a sub-parser that raises a Parser Error; the Scope
Stack after the call is the original one. -/
theorem parse_scoped_expr_scope_restore_witness :
    (parse_scoped_expr (fun _ st => (Except.error sampleErr2, st)) [("x", 0)] 0
        [[("y", 1)]]).2 = [[("y", 1)]]
    ∧ (parse_scoped_expr (fun _ st => ((Except.error sampleErr2 : Except parser_error PExpr), st))
        [("x", 0)] 0 [[("y", 1)]]).1 = Except.error sampleErr2 :=
  ⟨parse_scoped_expr_scope_restore Nat (fun _ st => (Except.error sampleErr2, st))
      [("x", 0)] 0 [[("y", 1)]] (fun _ f _ => ⟨f, rfl⟩),
    rfl⟩

/-! ### Theorems: Namespace/Section Manager -/

/-- C8: from the empty namespace stack, pushing Namespace Foo then
Namespace Bar makes the current qualified prefix Foo.Bar; one pop restores
Foo; a second restores the empty prefix; a third pop, with no open frame
left, is a Scope Error. -/
theorem namespace_push_pop_sequence :
    NsState.currentNs (push_scope scope_kind.Namespace (some "Bar")
        (push_scope scope_kind.Namespace (some "Foo") ⟨[], []⟩)) = ["Foo", "Bar"]
    ∧ Option.map NsState.currentNs
        (pop_scope (push_scope scope_kind.Namespace (some "Bar")
          (push_scope scope_kind.Namespace (some "Foo") ⟨[], []⟩))) = some ["Foo"]
    ∧ Option.map NsState.currentNs
        (Option.bind (pop_scope (push_scope scope_kind.Namespace (some "Bar")
          (push_scope scope_kind.Namespace (some "Foo") ⟨[], []⟩))) pop_scope) = some []
    ∧ Option.bind
        (Option.bind (pop_scope (push_scope scope_kind.Namespace (some "Bar")
          (push_scope scope_kind.Namespace (some "Foo") ⟨[], []⟩))) pop_scope) pop_scope
      = none := by
  refine ⟨rfl, rfl, rfl, rfl⟩

/-! ### Theorems: token advance -/

/-- C9: when the current token is end-of-input, `next()` is a no-op: the
current token stays end-of-input, nothing is consumed from the character
stream, and a second `next()` has the same effect as the first. -/
theorem next_at_eof (σ : Type) (scanFn : σ → token_kind × σ) (s : ScanState σ)
    (h : s.m_curr = token_kind.Eof) :
    pnext scanFn s = s ∧ pnext scanFn (pnext scanFn s) = pnext scanFn s := by
  have h1 : pnext scanFn s = s := by
    rw [pnext, if_neg]
    simp [h]
  exact ⟨h1, by rw [h1]; exact h1⟩

/-- Witness for C9: a scanner that would consume state if called; at Eof
it is not called. -/
theorem next_at_eof_witness :
    pnext (fun n : Nat => (token_kind.Eof, n + 1)) ⟨token_kind.Eof, 0⟩
      = (⟨token_kind.Eof, 0⟩ : ScanState Nat)
    ∧ pnext (fun n : Nat => (token_kind.Eof, n + 1))
        (pnext (fun n : Nat => (token_kind.Eof, n + 1)) ⟨token_kind.Eof, 0⟩)
      = pnext (fun n : Nat => (token_kind.Eof, n + 1)) ⟨token_kind.Eof, 0⟩ :=
  next_at_eof Nat (fun n : Nat => (token_kind.Eof, n + 1)) ⟨token_kind.Eof, 0⟩ rfl

/-! ### Theorems: parser construction -/

/-- C10: a parser constructed without the optional scripting-engine handle
and mode flag has no scripting engine and runs tolerant — the stored
handle is `none` and `m_use_exceptions` is `false`; strict mode holds only
when explicitly requested at construction. -/
theorem parser_default_construction (ε ι τ ς : Type) (env : ε) (ios : ι) (strm : τ)
    (strName : String) (ss : Option ς) (use_exc : Bool) :
    (mkParserDefault ε ι τ ς env ios strm strName).m_ss = none
    ∧ (mkParserDefault ε ι τ ς env ios strm strName).m_use_exceptions = false
    ∧ (mkParser ε ι τ ς env ios strm strName ss use_exc).m_use_exceptions = use_exc := by
  exact ⟨rfl, rfl, rfl⟩
